import Mathlib

/-!
# Verification of the luminoth detection post-processing core

Shallow embedding of `PredictorNetwork.predict_image`'s post-processing
stage and `PredictorNetwork.bbs_pixel_apart`
(`luminoth/utils/predicting.py`), together with theorems settling the
claims about that stage.

Modelling choices:
* Probabilities and pre-rescale coordinates are `Rat` (Python floats are
  used only on exactly representable values in the claims).
* `round(x, 4)` and `int(round(c))` use Python 3's round-half-to-even,
  modelled by `roundHalfEven`.
* Labels are `Int` (the raw class identifiers; the optional
  `class_labels` lookup happens upstream of the core and the claims
  treat labels opaquely).
* The `assert len(objects) == len(labels) == len(probs)` is modelled by
  returning `Option`: `none` is the assertion failure.
* Python list indexing that cannot fail on reachable inputs
  (`probs[i]` for `i` produced by `enumerate`, and `[...][0]` on a list
  that provably contains the maximum) is modelled with `getD` /
  a `match` whose empty case is unreachable (lemmas below prove the
  relevant lists nonempty).
-/

namespace Luminoth

/-- One output record of `predict_image`: the dict
`{bbox: ..., label: ..., prob: ...}`. -/
structure Detection where
  bbox : List Int
  label : Int
  prob : Rat
deriving DecidableEq, Repr

/-- Python 3 `round` to the nearest integer, halves to even. -/
def roundHalfEven (q : Rat) : Int :=
  if q - (⌊q⌋ : Rat) < 1/2 then ⌊q⌋
  else if 1/2 < q - (⌊q⌋ : Rat) then ⌊q⌋ + 1
  else if 2 ∣ ⌊q⌋ then ⌊q⌋ else ⌊q⌋ + 1

/-- Python `round(q, 4)`: round to four decimal places. -/
def round4 (q : Rat) : Rat := (roundHalfEven (q * 10000) : Rat) / 10000

/-- The `scale_factor` fetched from preprocessing: either a scalar or a
`(scale_factor_height, scale_factor_width)` pair. -/
inductive ScaleFactor where
  | scalar (s : Rat)
  | pair (sh sw : Rat)

/-- Lines 130-145 of `predicting.py`: divide the box by the scale factor
(element-wise against `[sw, sh, sw, sh]` for a pair) and cast each
coordinate with `int(round(coord))`. -/
def rescaleBox (sf : ScaleFactor) (box : List Rat) : List Int :=
  match sf with
  | ScaleFactor.scalar s => box.map (fun c => roundHalfEven (c / s))
  | ScaleFactor.pair sh sw =>
      (box.zip [sw, sh, sw, sh]).map (fun p => roundHalfEven (p.1 / p.2))

/-- Element-wise `np.fabs(np.subtract(a, b))` on two equal-length boxes
(the rescaled boxes are integer-valued). -/
def absDiffs (a b : List Int) : List Int :=
  (a.zip b).map (fun p => |p.1 - p.2|)

/-- Insert into an ascending list (helper for the `np.unique` model). -/
def insertLe (x : Int) : List Int → List Int
  | [] => [x]
  | y :: ys => if x ≤ y then x :: y :: ys else y :: insertLe x ys

/-- Ascending insertion sort (helper for the `np.unique` model). -/
def sortInts (l : List Int) : List Int := l.foldr insertLe []

/-- Remove adjacent duplicates (helper for the `np.unique` model). -/
def dedupAdj : List Int → List Int
  | [] => []
  | [x] => [x]
  | x :: y :: ys => if x = y then dedupAdj (y :: ys) else x :: dedupAdj (y :: ys)

/-- `np.unique`: the sorted list of distinct values. -/
def npUnique (l : List Int) : List Int := dedupAdj (sortInts l)

/-- Lines 109-114: `bbs_pixel_apart` returns the indices of all boxes
whose per-coordinate absolute differences against `obj`, deduplicated
and sorted, are exactly `[0, 1]`. -/
def bbs_pixel_apart (obj : List Int) (objects : List (List Int)) : List Nat :=
  (objects.enum.filter
    (fun p => npUnique (absDiffs p.2 obj) == [0, 1])).map Prod.fst

/-- Python `max` on a list; the empty case raises in Python and is
unreachable at every use site below (the lists always contain at least
one element). -/
def pythonMax (l : List Rat) : Rat :=
  match l with
  | [] => 0
  | x :: xs => xs.foldl max x

/-- `[index for index, prob in zip(ri, rp) if prob == m][0]`: the first
index paired with probability `m`.  The empty case raises `IndexError`
in Python and is unreachable at every use site below (`m` is the
maximum of `rp`, hence attained). -/
def firstMatch (ri : List Nat) (rp : List Rat) (m : Rat) : Nat :=
  match (ri.zip rp).filter (fun p => p.2 == m) with
  | [] => 0
  | p :: _ => p.1

/-- The slot index written by the near-duplicate branch (lines 152-174):
the first index among `bbs_pixel_apart obj objects ++ [count]` whose
probability equals the maximum of the group's probabilities. -/
def nearDupTarget (objects : List (List Int)) (probs : List Rat)
    (count : Nat) (obj : List Int) (prob : Rat) : Nat :=
  firstMatch (bbs_pixel_apart obj objects ++ [count])
    ((bbs_pixel_apart obj objects).map (fun i => probs.getD i 0) ++ [prob])
    (pythonMax ((bbs_pixel_apart obj objects).map (fun i => probs.getD i 0)
      ++ [prob]))

/-- Lines 153-174: when `bbs_pixel_apart` finds a nonempty group, write
the winning index's own record (its bbox, its label, the rounded
maximal probability) into the winning index's slot. -/
def nearDupStep (objects : List (List Int)) (labels : List Int)
    (probs : List Rat) (count : Nat) (obj : List Int) (prob : Rat)
    (preds : List (Option Detection)) : List (Option Detection) :=
  if 0 < (bbs_pixel_apart obj objects).length then
    preds.set (nearDupTarget objects probs count obj prob)
      (some ⟨objects.getD (nearDupTarget objects probs count obj prob) [],
        labels.getD (nearDupTarget objects probs count obj prob) 0,
        round4 (pythonMax
          ((bbs_pixel_apart obj objects).map (fun i => probs.getD i 0)
            ++ [prob]))⟩)
  else preds

/-- Lines 182-185: the indices of all boxes equal to `obj` verbatim
(the first components of `prob_repeated_objs`). -/
def exactIndices (objects : List (List Int)) (obj : List Int) : List Nat :=
  (objects.enum.filter (fun p => p.2 == obj)).map Prod.fst

/-- The slot index written by the exact-duplicate branch (lines 181-196):
the first index holding the maximal probability among all indices whose
box equals `obj` verbatim. -/
def exactTarget (objects : List (List Int)) (probs : List Rat)
    (obj : List Int) : Nat :=
  firstMatch (exactIndices objects obj)
    ((exactIndices objects obj).map (fun i => probs.getD i 0))
    (pythonMax ((exactIndices objects obj).map (fun i => probs.getD i 0)))

/-- Lines 175-196: the unique-count and exact-duplicate branches.  A box
occurring exactly once writes its own record into its own slot; a box
occurring more than once writes the exact-group winner's record into the
winner's slot. -/
def countStep (objects : List (List Int)) (labels : List Int)
    (probs : List Rat) (count : Nat) (obj : List Int) (label : Int)
    (prob : Rat) (preds : List (Option Detection)) :
    List (Option Detection) :=
  if objects.count obj == 1 then
    preds.set count (some ⟨obj, label, round4 prob⟩)
  else if 1 < objects.count obj then
    preds.set (exactTarget objects probs obj)
      (some ⟨obj, labels.getD (exactTarget objects probs obj) 0,
        round4 (pythonMax
          ((exactIndices objects obj).map (fun i => probs.getD i 0)))⟩)
  else preds

/-- One iteration of the `for obj, label, prob in zip(...)` loop at loop
counter `ct.1`: the near-duplicate branch, then the count branches. -/
def stepFn (objects : List (List Int)) (labels : List Int)
    (probs : List Rat) (preds : List (Option Detection))
    (ct : Nat × (List Int × (Int × Rat))) : List (Option Detection) :=
  countStep objects labels probs ct.1 ct.2.1 ct.2.2.1 ct.2.2.2
    (nearDupStep objects labels probs ct.1 ct.2.1 ct.2.2.2 preds)

/-- Lines 149-197: allocate `[None] * len(objects)` and run the loop over
`zip(objects, labels, probs)` with the running counter. -/
def runPass (objects : List (List Int)) (labels : List Int)
    (probs : List Rat) : List (Option Detection) :=
  ((objects.zip (labels.zip probs)).enum).foldl
    (stepFn objects labels probs) (List.replicate objects.length none)

/-- Line 199: `filter(None, predictions)` — drop the empty slots. -/
def compacted (objects : List (List Int)) (labels : List Int)
    (probs : List Rat) : List Detection :=
  (runPass objects labels probs).filterMap id

/-- Insert a record into a descending-by-probability list, after every
record of greater or equal probability (helper modelling the stable
descending sort of line 201). -/
def insertByProbDesc (x : Detection) : List Detection → List Detection
  | [] => [x]
  | y :: ys => if x.prob ≤ y.prob then y :: insertByProbDesc x ys
               else x :: y :: ys

/-- Lines 201-202: `sorted(predictions, key=lambda x: x['prob'],
reverse=True)` — the stable descending sort by probability. -/
def sortByProbDesc (l : List Detection) : List Detection :=
  l.foldl (fun acc x => insertByProbDesc x acc) []

/-- Lines 149-204: the whole post-processing pass on already-rescaled
integer boxes.  `none` models the `assert len(objects) == len(labels)
== len(probs)` failing. -/
def predict_image_post (objects : List (List Int)) (labels : List Int)
    (probs : List Rat) : Option (List Detection) :=
  if objects.length = labels.length ∧ labels.length = probs.length then
    some (sortByProbDesc (compacted objects labels probs))
  else none

/-- The record derived from input index `j`: index `j`'s own bbox, own
label, and own probability rounded to four decimals. -/
def ownRecord (objects : List (List Int)) (labels : List Int)
    (probs : List Rat) (j : Nat) : Detection :=
  ⟨objects.getD j [], labels.getD j 0, round4 (probs.getD j 0)⟩

/-! ## Helper lemmas -/

/-- `roundHalfEven` lands within one half of its argument: it is a
nearest-integer rounding. -/
theorem roundHalfEven_close (q : Rat) : |(roundHalfEven q : Rat) - q| ≤ 1/2 := by
  have h1 : ((⌊q⌋ : Int) : Rat) ≤ q := Int.floor_le q
  have h2 : q < (⌊q⌋ : Rat) + 1 := Int.lt_floor_add_one q
  unfold roundHalfEven
  split_ifs with hlt hgt hdvd <;> rw [abs_le] <;> constructor <;> push_cast <;>
    linarith

theorem foldl_max_mem (xs : List Rat) : ∀ x : Rat, xs.foldl max x ∈ x :: xs := by
  induction xs with
  | nil => intro x; simp
  | cons y ys ih =>
      intro x
      have h := ih (max x y)
      rcases max_choice x y with h1 | h1 <;> rw [h1] at h <;>
        simp only [List.foldl_cons, h1, List.mem_cons] at h ⊢ <;> tauto

/-- Python's `max` over a nonempty list is attained. -/
theorem pythonMax_mem (l : List Rat) (h : l ≠ []) : pythonMax l ∈ l := by
  match l with
  | x :: xs => simpa [pythonMax] using foldl_max_mem xs x

theorem le_foldl_max (xs : List Rat) : ∀ z : Rat, z ≤ xs.foldl max z := by
  induction xs with
  | nil => intro z; simp
  | cons y ys ih =>
      intro z
      exact le_trans (le_max_left z y) (ih (max z y))

theorem mem_le_foldl_max (xs : List Rat) : ∀ z a : Rat, a ∈ xs → a ≤ xs.foldl max z := by
  induction xs with
  | nil => intro z a ha; simp at ha
  | cons y ys ih =>
      intro z a ha
      rcases List.mem_cons.mp ha with rfl | hm
      · exact le_trans (le_max_right z a) (le_foldl_max ys (max z a))
      · exact ih (max z y) a hm

/-- Python's `max` bounds every element of the list. -/
theorem le_pythonMax (l : List Rat) (a : Rat) (h : a ∈ l) : a ≤ pythonMax l := by
  match l with
  | [] => simp at h
  | x :: xs =>
      rcases List.mem_cons.mp h with rfl | hm
      · simpa [pythonMax] using le_foldl_max xs a
      · simpa [pythonMax] using mem_le_foldl_max xs x a hm

/-- The head of a `filter` is the first element satisfying the predicate. -/
theorem filter_head_spec {α : Type} (p : α → Bool) :
    ∀ (l : List α) (x : α) (xs : List α), l.filter p = x :: xs →
      ∃ k, l.get? k = some x ∧ p x = true ∧
        ∀ k' < k, ∀ y, l.get? k' = some y → p y = false := by
  intro l
  induction l with
  | nil => intro x xs h; simp [List.filter] at h
  | cons a t ih =>
      intro x xs h
      by_cases hpa : p a = true
      · rw [List.filter_cons_of_pos hpa] at h
        injection h with h1 h2
        subst h1
        exact ⟨0, rfl, hpa, fun k' hk' => absurd hk' (Nat.not_lt_zero k')⟩
      · rw [List.filter_cons_of_neg (by simpa using hpa)] at h
        obtain ⟨k, hk, hpx, hbefore⟩ := ih x xs h
        refine ⟨k + 1, hk, hpx, ?_⟩
        intro k' hk' y hy
        match k' with
        | 0 =>
            injection hy with hy
            subst hy
            exact eq_false_of_ne_true hpa
        | (k'' + 1) =>
            exact hbefore k'' (Nat.lt_of_succ_lt_succ hk') y hy

/-- `firstMatch` applied to a list of indices and their probabilities,
when the sought value is attained, returns the first index attaining
it. -/
theorem firstMatch_spec (ri : List Nat) (f : Nat → Rat) (m : Rat)
    (h : m ∈ ri.map f) :
    ∃ k, ri.get? k = some (firstMatch ri (ri.map f) m) ∧
      f (firstMatch ri (ri.map f) m) = m ∧
      ∀ k' < k, ∀ j, ri.get? k' = some j → f j ≠ m := by
  have hz : ri.zip (ri.map f) = ri.map (fun i => (i, f i)) := by
    simpa using List.zip_map' (fun a : Nat => a) f ri
  have hfil : (ri.zip (ri.map f)).filter (fun p => p.2 == m)
      = (ri.filter (fun i => f i == m)).map (fun i => (i, f i)) := by
    rw [hz]; exact List.filter_map (fun i => (i, f i)) ri
  obtain ⟨i, hi, hfi⟩ := List.mem_map.mp h
  have hmem : i ∈ ri.filter (fun i => f i == m) :=
    List.mem_filter.mpr ⟨hi, by simp [hfi]⟩
  rcases hl : ri.filter (fun i => f i == m) with _ | ⟨i₀, rest⟩
  · rw [hl] at hmem; simp at hmem
  · have hfm : firstMatch ri (ri.map f) m = i₀ := by
      unfold firstMatch
      rw [hfil, hl, List.map_cons]
    obtain ⟨k, hk, hp, hbefore⟩ := filter_head_spec (fun i => f i == m) ri i₀ rest hl
    rw [hfm]
    refine ⟨k, hk, by simpa using hp, ?_⟩
    intro k' hk' j hj
    simpa using hbefore k' hk' j hj

theorem getD_of_get? {α : Type} (l : List α) (c : Nat) (a d : α)
    (h : l.get? c = some a) : l.getD c d = a := by
  have h1 : l.getD c d = (l.get? c).getD d := rfl
  rw [h1, h, Option.getD_some]

theorem get?_eq_some_getD {α : Type} (l : List α) (i : Nat) (d : α)
    (h : i < l.length) : l.get? i = some (l.getD i d) := by
  have h1 : l.getD i d = (l.get? i).getD d := rfl
  rw [List.get?_eq_get h] at h1 ⊢
  rw [h1, Option.getD_some]

/-- Characterization of `exactIndices` membership: exactly the positions
holding a box equal to `obj`. -/
theorem mem_exactIndices (objects : List (List Int)) (obj : List Int) (j : Nat) :
    j ∈ exactIndices objects obj ↔ objects.get? j = some obj := by
  unfold exactIndices
  constructor
  · intro h
    obtain ⟨p, hp, hp1⟩ := List.mem_map.mp h
    obtain ⟨hpe, hpq⟩ := List.mem_filter.mp hp
    obtain ⟨i, x⟩ := p
    simp only at hp1 hpq
    subst hp1
    have := List.mk_mem_enum_iff_getElem?.mp hpe
    rw [List.get?_eq_getElem?, this]
    have : x = obj := by simpa using hpq
    rw [this]
  · intro h
    refine List.mem_map.mpr ⟨(j, obj), List.mem_filter.mpr ⟨?_, by simp⟩, rfl⟩
    rw [List.mk_mem_enum_iff_getElem?, ← List.get?_eq_getElem?]
    exact h

theorem exactIndices_ne_nil (objects : List (List Int)) (obj : List Int)
    (h : 0 < objects.count obj) : exactIndices objects obj ≠ [] := by
  have hmem : obj ∈ objects := List.count_pos_iff.mp h
  obtain ⟨i, hi⟩ := List.mem_iff_get?.mp hmem
  exact List.ne_nil_of_mem ((mem_exactIndices objects obj i).mpr hi)

/-- The near-duplicate branch's candidate probabilities are the mapped
probabilities of the candidate indices. -/
theorem nearDup_cand_probs (objects : List (List Int)) (probs : List Rat)
    (c : Nat) (obj : List Int) (prob : Rat) (hprob : probs.getD c 0 = prob) :
    (bbs_pixel_apart obj objects).map (fun i => probs.getD i 0) ++ [prob] =
      (bbs_pixel_apart obj objects ++ [c]).map (fun i => probs.getD i 0) := by
  rw [List.map_append]
  congr 1
  rw [List.map_singleton, hprob]

/-- `nearDupTarget` picks the first candidate (group members in index
order, then the current index last) attaining the maximal candidate
probability. -/
theorem nearDupTarget_spec (objects : List (List Int)) (probs : List Rat)
    (c : Nat) (obj : List Int) (prob : Rat) (hprob : probs.getD c 0 = prob) :
    ∃ k, (bbs_pixel_apart obj objects ++ [c]).get? k =
        some (nearDupTarget objects probs c obj prob) ∧
      probs.getD (nearDupTarget objects probs c obj prob) 0 =
        pythonMax ((bbs_pixel_apart obj objects ++ [c]).map
          (fun i => probs.getD i 0)) ∧
      ∀ k' < k, ∀ j, (bbs_pixel_apart obj objects ++ [c]).get? k' = some j →
        probs.getD j 0 ≠
          pythonMax ((bbs_pixel_apart obj objects ++ [c]).map
            (fun i => probs.getD i 0)) := by
  have hm : pythonMax ((bbs_pixel_apart obj objects ++ [c]).map
      (fun i => probs.getD i 0)) ∈
      (bbs_pixel_apart obj objects ++ [c]).map (fun i => probs.getD i 0) :=
    pythonMax_mem _ (by simp)
  have htgt : nearDupTarget objects probs c obj prob =
      firstMatch (bbs_pixel_apart obj objects ++ [c])
        ((bbs_pixel_apart obj objects ++ [c]).map (fun i => probs.getD i 0))
        (pythonMax ((bbs_pixel_apart obj objects ++ [c]).map
          (fun i => probs.getD i 0))) := by
    unfold nearDupTarget
    rw [nearDup_cand_probs objects probs c obj prob hprob]
  rw [htgt]
  exact firstMatch_spec _ _ _ hm

theorem nearDupStep_id (objects : List (List Int)) (labels : List Int)
    (probs : List Rat) (c : Nat) (obj : List Int) (prob : Rat)
    (preds : List (Option Detection))
    (h : bbs_pixel_apart obj objects = []) :
    nearDupStep objects labels probs c obj prob preds = preds := by
  unfold nearDupStep
  rw [if_neg]
  simp [h]

/-- When the group is nonempty, the near-duplicate branch writes the
winning index's own record into the winning index's slot. -/
theorem nearDupStep_eq_set (objects : List (List Int)) (labels : List Int)
    (probs : List Rat) (c : Nat) (obj : List Int) (prob : Rat)
    (preds : List (Option Detection)) (hprob : probs.getD c 0 = prob)
    (hne : bbs_pixel_apart obj objects ≠ []) :
    nearDupStep objects labels probs c obj prob preds =
      preds.set (nearDupTarget objects probs c obj prob)
        (some (ownRecord objects labels probs
          (nearDupTarget objects probs c obj prob))) := by
  obtain ⟨k, hk, hmax, hfirst⟩ :=
    nearDupTarget_spec objects probs c obj prob hprob
  unfold nearDupStep
  rw [if_pos (List.length_pos.mpr hne)]
  unfold ownRecord
  rw [nearDup_cand_probs objects probs c obj prob hprob, ← hmax]

theorem countStep_id (objects : List (List Int)) (labels : List Int)
    (probs : List Rat) (c : Nat) (obj : List Int) (label : Int) (prob : Rat)
    (preds : List (Option Detection)) (h : objects.count obj = 0) :
    countStep objects labels probs c obj label prob preds = preds := by
  unfold countStep
  rw [if_neg (by simp [h]), if_neg (by simp [h])]

theorem countStep_unique (objects : List (List Int)) (labels : List Int)
    (probs : List Rat) (c : Nat) (obj : List Int) (label : Int) (prob : Rat)
    (preds : List (Option Detection)) (h : objects.count obj = 1) :
    countStep objects labels probs c obj label prob preds =
      preds.set c (some ⟨obj, label, round4 prob⟩) := by
  unfold countStep
  rw [if_pos (by simp [h])]

theorem countStep_exact (objects : List (List Int)) (labels : List Int)
    (probs : List Rat) (c : Nat) (obj : List Int) (label : Int) (prob : Rat)
    (preds : List (Option Detection)) (h : 1 < objects.count obj) :
    countStep objects labels probs c obj label prob preds =
      preds.set (exactTarget objects probs obj)
        (some ⟨obj, labels.getD (exactTarget objects probs obj) 0,
          round4 (pythonMax ((exactIndices objects obj).map
            (fun i => probs.getD i 0)))⟩) := by
  unfold countStep
  rw [if_neg (by simp; omega), if_pos (by simpa using h)]

/-- `exactTarget` picks the first index of the exact-duplicate group
attaining the group's maximal probability, and that index holds a box
equal to `obj`. -/
theorem exactTarget_spec (objects : List (List Int)) (probs : List Rat)
    (obj : List Int) (hne : exactIndices objects obj ≠ []) :
    ∃ k, (exactIndices objects obj).get? k =
        some (exactTarget objects probs obj) ∧
      objects.get? (exactTarget objects probs obj) = some obj ∧
      probs.getD (exactTarget objects probs obj) 0 =
        pythonMax ((exactIndices objects obj).map (fun i => probs.getD i 0)) ∧
      ∀ k' < k, ∀ j, (exactIndices objects obj).get? k' = some j →
        probs.getD j 0 ≠
          pythonMax ((exactIndices objects obj).map (fun i => probs.getD i 0)) := by
  have hm : pythonMax ((exactIndices objects obj).map (fun i => probs.getD i 0)) ∈
      (exactIndices objects obj).map (fun i => probs.getD i 0) := by
    refine pythonMax_mem _ ?_
    simpa using hne
  have htgt : exactTarget objects probs obj =
      firstMatch (exactIndices objects obj)
        ((exactIndices objects obj).map (fun i => probs.getD i 0))
        (pythonMax ((exactIndices objects obj).map (fun i => probs.getD i 0))) :=
    rfl
  rw [htgt]
  obtain ⟨k, hk, hfw, hfirst⟩ := firstMatch_spec _ _ _ hm
  refine ⟨k, hk, ?_, hfw, hfirst⟩
  exact (mem_exactIndices objects obj _).mp (List.get?_mem hk)

/-- Invariant of the prediction slots: a filled slot `j` always holds
the record derived from input index `j`. -/
def SlotsOk (objects : List (List Int)) (labels : List Int)
    (probs : List Rat) (s : List (Option Detection)) : Prop :=
  ∀ j v, s.get? j = some (some v) → v = ownRecord objects labels probs j

theorem slotsOk_set (objects : List (List Int)) (labels : List Int)
    (probs : List Rat) (s : List (Option Detection)) (w : Nat)
    (hs : SlotsOk objects labels probs s) :
    SlotsOk objects labels probs
      (s.set w (some (ownRecord objects labels probs w))) := by
  intro j v hj
  by_cases hjw : j = w
  · subst hjw
    by_cases hw : j < s.length
    · rw [List.get?_set_eq_of_lt _ hw] at hj
      injection hj with hj
      injection hj with hj
      exact hj.symm
    · rw [List.set_eq_of_length_le (le_of_not_lt hw)] at hj
      exact hs j v hj
  · rw [List.get?_set_ne _ _ (fun h => hjw h.symm)] at hj
    exact hs j v hj

theorem get?_set_some_mono (s : List (Option Detection)) (w : Nat)
    (r : Detection) (j : Nat) (v : Detection)
    (h : s.get? j = some (some v)) :
    ∃ v', (s.set w (some r)).get? j = some (some v') := by
  by_cases hjw : j = w
  · subst hjw
    by_cases hw : j < s.length
    · exact ⟨r, List.get?_set_eq_of_lt _ hw⟩
    · rw [List.set_eq_of_length_le (le_of_not_lt hw)]
      exact ⟨v, h⟩
  · rw [List.get?_set_ne _ _ (fun h' => hjw h'.symm)]
    exact ⟨v, h⟩

/-- Every branch of `nearDupStep` either leaves the slots unchanged or
performs one `set` of a `some` value. -/
theorem nearDupStep_shape (objects : List (List Int)) (labels : List Int)
    (probs : List Rat) (c : Nat) (obj : List Int) (prob : Rat)
    (preds : List (Option Detection)) :
    (∃ w r, nearDupStep objects labels probs c obj prob preds =
      preds.set w (some r)) ∨
    nearDupStep objects labels probs c obj prob preds = preds := by
  unfold nearDupStep
  split
  · exact Or.inl ⟨_, _, rfl⟩
  · exact Or.inr rfl

/-- Every branch of `countStep` either leaves the slots unchanged or
performs one `set` of a `some` value. -/
theorem countStep_shape (objects : List (List Int)) (labels : List Int)
    (probs : List Rat) (c : Nat) (obj : List Int) (label : Int) (prob : Rat)
    (preds : List (Option Detection)) :
    (∃ w r, countStep objects labels probs c obj label prob preds =
      preds.set w (some r)) ∨
    countStep objects labels probs c obj label prob preds = preds := by
  unfold countStep
  split
  · exact Or.inl ⟨_, _, rfl⟩
  · split
    · exact Or.inl ⟨_, _, rfl⟩
    · exact Or.inr rfl

theorem nearDupStep_length (objects : List (List Int)) (labels : List Int)
    (probs : List Rat) (c : Nat) (obj : List Int) (prob : Rat)
    (preds : List (Option Detection)) :
    (nearDupStep objects labels probs c obj prob preds).length =
      preds.length := by
  rcases nearDupStep_shape objects labels probs c obj prob preds with
    ⟨w, r, h⟩ | h <;> rw [h]
  exact List.length_set preds w _

theorem countStep_length (objects : List (List Int)) (labels : List Int)
    (probs : List Rat) (c : Nat) (obj : List Int) (label : Int) (prob : Rat)
    (preds : List (Option Detection)) :
    (countStep objects labels probs c obj label prob preds).length =
      preds.length := by
  rcases countStep_shape objects labels probs c obj label prob preds with
    ⟨w, r, h⟩ | h <;> rw [h]
  exact List.length_set preds w _

theorem stepFn_length (objects : List (List Int)) (labels : List Int)
    (probs : List Rat) (preds : List (Option Detection))
    (e : Nat × (List Int × (Int × Rat))) :
    (stepFn objects labels probs preds e).length = preds.length := by
  unfold stepFn
  rw [countStep_length, nearDupStep_length]

theorem nearDupStep_mono (objects : List (List Int)) (labels : List Int)
    (probs : List Rat) (c : Nat) (obj : List Int) (prob : Rat)
    (preds : List (Option Detection)) (j : Nat) (v : Detection)
    (h : preds.get? j = some (some v)) :
    ∃ v', (nearDupStep objects labels probs c obj prob preds).get? j =
      some (some v') := by
  rcases nearDupStep_shape objects labels probs c obj prob preds with
    ⟨w, r, hw⟩ | hid
  · rw [hw]; exact get?_set_some_mono preds w r j v h
  · rw [hid]; exact ⟨v, h⟩

theorem countStep_mono (objects : List (List Int)) (labels : List Int)
    (probs : List Rat) (c : Nat) (obj : List Int) (label : Int) (prob : Rat)
    (preds : List (Option Detection)) (j : Nat) (v : Detection)
    (h : preds.get? j = some (some v)) :
    ∃ v', (countStep objects labels probs c obj label prob preds).get? j =
      some (some v') := by
  rcases countStep_shape objects labels probs c obj label prob preds with
    ⟨w, r, hw⟩ | hid
  · rw [hw]; exact get?_set_some_mono preds w r j v h
  · rw [hid]; exact ⟨v, h⟩

theorem stepFn_mono (objects : List (List Int)) (labels : List Int)
    (probs : List Rat) (preds : List (Option Detection))
    (e : Nat × (List Int × (Int × Rat))) (j : Nat) (v : Detection)
    (h : preds.get? j = some (some v)) :
    ∃ v', (stepFn objects labels probs preds e).get? j = some (some v') := by
  obtain ⟨v₁, h₁⟩ :=
    nearDupStep_mono objects labels probs e.1 e.2.1 e.2.2.2 preds j v h
  exact countStep_mono objects labels probs e.1 e.2.1 e.2.2.1 e.2.2.2 _ j v₁ h₁

theorem slotsOk_nearDupStep (objects : List (List Int)) (labels : List Int)
    (probs : List Rat) (c : Nat) (obj : List Int) (prob : Rat)
    (preds : List (Option Detection)) (hprob : probs.getD c 0 = prob)
    (hs : SlotsOk objects labels probs preds) :
    SlotsOk objects labels probs
      (nearDupStep objects labels probs c obj prob preds) := by
  by_cases hri : bbs_pixel_apart obj objects = []
  · rw [nearDupStep_id objects labels probs c obj prob preds hri]
    exact hs
  · rw [nearDupStep_eq_set objects labels probs c obj prob preds hprob hri]
    exact slotsOk_set objects labels probs preds _ hs

theorem slotsOk_countStep (objects : List (List Int)) (labels : List Int)
    (probs : List Rat) (c : Nat) (obj : List Int) (label : Int) (prob : Rat)
    (preds : List (Option Detection)) (hobj : objects.getD c [] = obj)
    (hlab : labels.getD c 0 = label) (hprob : probs.getD c 0 = prob)
    (hs : SlotsOk objects labels probs preds) :
    SlotsOk objects labels probs
      (countStep objects labels probs c obj label prob preds) := by
  by_cases h1 : objects.count obj = 1
  · rw [countStep_unique objects labels probs c obj label prob preds h1]
    have : (⟨obj, label, round4 prob⟩ : Detection) =
        ownRecord objects labels probs c := by
      unfold ownRecord
      rw [hobj, hlab, hprob]
    rw [this]
    exact slotsOk_set objects labels probs preds c hs
  · by_cases h2 : 1 < objects.count obj
    · rw [countStep_exact objects labels probs c obj label prob preds h2]
      obtain ⟨k, hk, hobj', hmax, hfirst⟩ :=
        exactTarget_spec objects probs obj
          (exactIndices_ne_nil objects obj (by omega))
      have : (⟨obj, labels.getD (exactTarget objects probs obj) 0,
          round4 (pythonMax ((exactIndices objects obj).map
            (fun i => probs.getD i 0)))⟩ : Detection) =
          ownRecord objects labels probs (exactTarget objects probs obj) := by
        unfold ownRecord
        rw [← hmax, getD_of_get? _ _ _ _ hobj']
      rw [this]
      exact slotsOk_set objects labels probs preds _ hs
    · rw [countStep_id objects labels probs c obj label prob preds (by omega)]
      exact hs

theorem slotsOk_stepFn (objects : List (List Int)) (labels : List Int)
    (probs : List Rat) (preds : List (Option Detection))
    (e : Nat × (List Int × (Int × Rat)))
    (hobj : objects.getD e.1 [] = e.2.1)
    (hlab : labels.getD e.1 0 = e.2.2.1)
    (hprob : probs.getD e.1 0 = e.2.2.2)
    (hs : SlotsOk objects labels probs preds) :
    SlotsOk objects labels probs (stepFn objects labels probs preds e) := by
  unfold stepFn
  exact slotsOk_countStep objects labels probs e.1 e.2.1 e.2.2.1 e.2.2.2 _
    hobj hlab hprob
    (slotsOk_nearDupStep objects labels probs e.1 e.2.1 e.2.2.2 preds hprob hs)

theorem foldl_stepFn_length (objects : List (List Int)) (labels : List Int)
    (probs : List Rat) (L : List (Nat × (List Int × (Int × Rat)))) :
    ∀ s : List (Option Detection),
      (L.foldl (stepFn objects labels probs) s).length = s.length := by
  induction L with
  | nil => intro s; rfl
  | cons e L ih =>
      intro s
      rw [List.foldl_cons, ih, stepFn_length]

theorem foldl_stepFn_mono (objects : List (List Int)) (labels : List Int)
    (probs : List Rat) (L : List (Nat × (List Int × (Int × Rat)))) :
    ∀ (s : List (Option Detection)) (j : Nat) (v : Detection),
      s.get? j = some (some v) →
      ∃ v', (L.foldl (stepFn objects labels probs) s).get? j =
        some (some v') := by
  induction L with
  | nil => intro s j v h; exact ⟨v, h⟩
  | cons e L ih =>
      intro s j v h
      obtain ⟨v₁, h₁⟩ := stepFn_mono objects labels probs s e j v h
      exact ih _ j v₁ h₁

theorem foldl_stepFn_slotsOk (objects : List (List Int)) (labels : List Int)
    (probs : List Rat) (L : List (Nat × (List Int × (Int × Rat))))
    (hel : ∀ e ∈ L, objects.getD e.1 [] = e.2.1 ∧
      labels.getD e.1 0 = e.2.2.1 ∧ probs.getD e.1 0 = e.2.2.2) :
    ∀ s : List (Option Detection), SlotsOk objects labels probs s →
      SlotsOk objects labels probs (L.foldl (stepFn objects labels probs) s) := by
  induction L with
  | nil => intro s hs; exact hs
  | cons e L ih =>
      intro s hs
      rw [List.foldl_cons]
      obtain ⟨h1, h2, h3⟩ := hel e (List.mem_cons_self e L)
      exact ih (fun e' he' => hel e' (List.mem_cons_of_mem e he'))
        _ (slotsOk_stepFn objects labels probs s e h1 h2 h3 hs)

/-- The element of `zip(objects, zip(labels, probs))` at a position
determines the three component values at that position. -/
theorem triples_get_components (objects : List (List Int)) (labels : List Int)
    (probs : List Rat) (i : Nat) (t : List Int × (Int × Rat))
    (ht : (objects.zip (labels.zip probs)).get? i = some t) :
    objects.get? i = some t.1 ∧ labels.get? i = some t.2.1 ∧
      probs.get? i = some t.2.2 := by
  rw [List.get?_zip_eq_some] at ht
  obtain ⟨h1, h2⟩ := ht
  rw [List.get?_zip_eq_some] at h2
  exact ⟨h1, h2.1, h2.2⟩

/-- With aligned lengths, position `i < N` of the zipped triples holds
exactly index `i`'s box, label and probability. -/
theorem triples_get (objects : List (List Int)) (labels : List Int)
    (probs : List Rat) (i : Nat) (ho : objects.length = labels.length)
    (hp : labels.length = probs.length) (hi : i < objects.length) :
    (objects.zip (labels.zip probs)).get? i =
      some (objects.getD i [], (labels.getD i 0, probs.getD i 0)) := by
  rw [List.get?_zip_eq_some]
  refine ⟨get?_eq_some_getD objects i [] hi, ?_⟩
  rw [List.get?_zip_eq_some]
  exact ⟨get?_eq_some_getD labels i 0 (by omega),
    get?_eq_some_getD probs i 0 (by omega)⟩

/-- Every filled slot of the finished pass holds the record derived from
its own index. -/
theorem runPass_slotsOk (objects : List (List Int)) (labels : List Int)
    (probs : List Rat) :
    SlotsOk objects labels probs (runPass objects labels probs) := by
  unfold runPass
  apply foldl_stepFn_slotsOk
  · intro e he
    obtain ⟨i, t⟩ := e
    have hmem : (objects.zip (labels.zip probs)).get? i = some t := by
      have := List.mk_mem_enum_iff_getElem?.mp he
      rw [List.get?_eq_getElem?, this]
    obtain ⟨h1, h2, h3⟩ :=
      triples_get_components objects labels probs i t hmem
    exact ⟨getD_of_get? _ _ _ _ h1, getD_of_get? _ _ _ _ h2,
      getD_of_get? _ _ _ _ h3⟩
  · intro j v hj
    rw [List.get?_eq_getElem?, List.getElem?_replicate] at hj
    by_cases h : j < objects.length
    · rw [if_pos h] at hj
      injection hj with hj
      cases hj
    · rw [if_neg h] at hj
      cases hj

theorem runPass_length (objects : List (List Int)) (labels : List Int)
    (probs : List Rat) :
    (runPass objects labels probs).length = objects.length := by
  unfold runPass
  rw [foldl_stepFn_length, List.length_replicate]

/-- Split a fold at position `i` of the list. -/
theorem foldl_split {σ β : Type} (L : List β) (g : σ → β → σ) (s : σ)
    (i : Nat) (e : β) (he : L.get? i = some e) :
    L.foldl g s = (L.drop (i + 1)).foldl g (g ((L.take i).foldl g s) e) := by
  have hi : i < L.length := by
    by_contra h
    rw [List.get?_eq_none.mpr (le_of_not_lt h)] at he
    cases he
  have hget : L.get ⟨i, hi⟩ = e := by
    have h' := List.get?_eq_get hi
    rw [h'] at he
    injection he
  conv_lhs => rw [← List.take_append_drop i L]
  rw [List.foldl_append, List.drop_eq_get_cons hi, hget, List.foldl_cons]

/-- If the loop body at iteration `i` deterministically fills slot `w`
(whatever state it receives, as long as the state has the right
length), then slot `w` of the finished pass is filled. -/
theorem runPass_get_of_write (objects : List (List Int)) (labels : List Int)
    (probs : List Rat) (i w : Nat) (t : List Int × (Int × Rat))
    (ht : (objects.zip (labels.zip probs)).get? i = some t)
    (hwrite : ∀ s : List (Option Detection), s.length = objects.length →
      ∃ v, (stepFn objects labels probs s (i, t)).get? w = some (some v)) :
    ∃ v, (runPass objects labels probs).get? w = some (some v) := by
  unfold runPass
  have henum : ((objects.zip (labels.zip probs)).enum).get? i = some (i, t) := by
    rw [List.enum_get?, ht]
    rfl
  rw [foldl_split _ _ _ i (i, t) henum]
  have hlen1 : ((((objects.zip (labels.zip probs)).enum).take i).foldl
      (stepFn objects labels probs)
      (List.replicate objects.length none)).length = objects.length := by
    rw [foldl_stepFn_length, List.length_replicate]
  obtain ⟨v, hv⟩ := hwrite _ hlen1
  exact foldl_stepFn_mono objects labels probs _ _ w v hv

/-- At an iteration whose box occurs exactly once, the loop body ends by
writing the iteration's own record into its own slot. -/
theorem stepFn_unique_write (objects : List (List Int)) (labels : List Int)
    (probs : List Rat) (i : Nat) (obj : List Int) (label : Int) (prob : Rat)
    (hobj : objects.getD i [] = obj) (hlab : labels.getD i 0 = label)
    (hprob : probs.getD i 0 = prob) (h1 : objects.count obj = 1)
    (hi : i < objects.length) (s : List (Option Detection))
    (hs : s.length = objects.length) :
    (stepFn objects labels probs s (i, (obj, (label, prob)))).get? i =
      some (some (ownRecord objects labels probs i)) := by
  unfold stepFn
  rw [countStep_unique objects labels probs i obj label prob _ h1]
  have hlen : (nearDupStep objects labels probs i obj prob s).length =
      objects.length := by
    rw [nearDupStep_length, hs]
  rw [List.get?_set_eq_of_lt _ (by rw [hlen]; exact hi)]
  have hval : (⟨obj, label, round4 prob⟩ : Detection) =
      ownRecord objects labels probs i := by
    unfold ownRecord
    rw [hobj, hlab, hprob]
  rw [hval]

/-- At an iteration whose box occurs more than once, the loop body ends
by writing the exact-group winner's record into the winner's slot. -/
theorem stepFn_exact_write (objects : List (List Int)) (labels : List Int)
    (probs : List Rat) (i : Nat) (obj : List Int) (label : Int) (prob : Rat)
    (h2 : 1 < objects.count obj) (s : List (Option Detection))
    (hs : s.length = objects.length) :
    (stepFn objects labels probs s (i, (obj, (label, prob)))).get?
        (exactTarget objects probs obj) =
      some (some (ownRecord objects labels probs
        (exactTarget objects probs obj))) := by
  unfold stepFn
  rw [countStep_exact objects labels probs i obj label prob _ h2]
  obtain ⟨k, hk, hobj', hmax, _⟩ :=
    exactTarget_spec objects probs obj
      (exactIndices_ne_nil objects obj (by omega))
  obtain ⟨hwlt, _⟩ := List.get?_eq_some.mp hobj'
  have hlen : (nearDupStep objects labels probs i obj prob s).length =
      objects.length := by
    rw [nearDupStep_length, hs]
  rw [List.get?_set_eq_of_lt _ (by rw [hlen]; exact hwlt)]
  have hval : (⟨obj, labels.getD (exactTarget objects probs obj) 0,
      round4 (pythonMax ((exactIndices objects obj).map
        (fun i => probs.getD i 0)))⟩ : Detection) =
      ownRecord objects labels probs (exactTarget objects probs obj) := by
    unfold ownRecord
    rw [← hmax, getD_of_get? _ _ _ _ hobj']
  rw [hval]

/-- Final content of the slot of a box occurring exactly once: its own
record. -/
theorem runPass_unique_slot (objects : List (List Int)) (labels : List Int)
    (probs : List Rat) (i : Nat) (ho : objects.length = labels.length)
    (hp : labels.length = probs.length) (hi : i < objects.length)
    (h1 : objects.count (objects.getD i []) = 1) :
    (runPass objects labels probs).get? i =
      some (some (ownRecord objects labels probs i)) := by
  have ht := triples_get objects labels probs i ho hp hi
  obtain ⟨v, hv⟩ := runPass_get_of_write objects labels probs i i _ ht
    (fun s hs => ⟨ownRecord objects labels probs i,
      stepFn_unique_write objects labels probs i _ _ _ rfl rfl rfl h1 hi s hs⟩)
  have := runPass_slotsOk objects labels probs i v hv
  rw [hv, this]

/-- Final content of the winning slot of a box occurring more than once:
the winner's own record. -/
theorem runPass_exact_slot (objects : List (List Int)) (labels : List Int)
    (probs : List Rat) (i : Nat) (ho : objects.length = labels.length)
    (hp : labels.length = probs.length) (hi : i < objects.length)
    (h2 : 1 < objects.count (objects.getD i [])) :
    (runPass objects labels probs).get?
        (exactTarget objects probs (objects.getD i [])) =
      some (some (ownRecord objects labels probs
        (exactTarget objects probs (objects.getD i [])))) := by
  have ht := triples_get objects labels probs i ho hp hi
  obtain ⟨v, hv⟩ := runPass_get_of_write objects labels probs i
    (exactTarget objects probs (objects.getD i [])) _ ht
    (fun s hs => ⟨ownRecord objects labels probs
        (exactTarget objects probs (objects.getD i [])),
      stepFn_exact_write objects labels probs i _ _ _ h2 s hs⟩)
  have := runPass_slotsOk objects labels probs _ v hv
  rw [hv, this]

/-- A filled slot's record survives into the compacted list. -/
theorem mem_compacted_of_slot (objects : List (List Int)) (labels : List Int)
    (probs : List Rat) (j : Nat) (v : Detection)
    (h : (runPass objects labels probs).get? j = some (some v)) :
    v ∈ compacted objects labels probs := by
  unfold compacted
  exact List.mem_filterMap.mpr ⟨some v, List.get?_mem h, rfl⟩

theorem insertByProbDesc_perm (x : Detection) (l : List Detection) :
    List.Perm (insertByProbDesc x l) (x :: l) := by
  induction l with
  | nil => exact List.Perm.refl _
  | cons y ys ih =>
      unfold insertByProbDesc
      split
      · exact List.Perm.trans (List.Perm.cons y ih) (List.Perm.swap x y ys)
      · exact List.Perm.refl _

theorem foldl_insert_perm (l : List Detection) :
    ∀ acc, List.Perm
      (l.foldl (fun acc x => insertByProbDesc x acc) acc) (l ++ acc) := by
  induction l with
  | nil => intro acc; exact List.Perm.refl _
  | cons x l ih =>
      intro acc
      rw [List.foldl_cons]
      exact List.Perm.trans (ih _)
        (List.Perm.trans (List.Perm.append_left l (insertByProbDesc_perm x acc))
          List.perm_middle)

/-- The final sort is a permutation: no record appears or disappears. -/
theorem sortByProbDesc_perm (l : List Detection) :
    List.Perm (sortByProbDesc l) l := by
  have h := foldl_insert_perm l []
  rw [List.append_nil] at h
  exact h

theorem insertByProbDesc_head? (x b : Detection) (l : List Detection)
    (h : (insertByProbDesc x l).head? = some b) : b = x ∨ l.head? = some b := by
  cases l with
  | nil =>
      unfold insertByProbDesc at h
      injection h with h
      exact Or.inl h.symm
  | cons y ys =>
      unfold insertByProbDesc at h
      split at h
      · right
        injection h with h
        rw [h]
        rfl
      · left
        injection h with h
        exact h.symm

theorem insertByProbDesc_chain (x : Detection) (l : List Detection)
    (h : List.Chain' (fun a b : Detection => b.prob ≤ a.prob) l) :
    List.Chain' (fun a b : Detection => b.prob ≤ a.prob)
      (insertByProbDesc x l) := by
  induction l with
  | nil => exact List.chain'_singleton x
  | cons y ys ih =>
      unfold insertByProbDesc
      split
      · rename_i hle
        rw [List.chain'_cons']
        refine ⟨?_, ih (List.Chain'.tail h)⟩
        intro b hb
        rcases insertByProbDesc_head? x b ys hb with rfl | hb'
        · exact hle
        · cases ys with
          | nil => cases hb'
          | cons z zs =>
              injection hb' with hb'
              rw [← hb']
              exact (List.chain'_cons.mp h).1
      · rename_i hgt
        rw [List.chain'_cons]
        exact ⟨le_of_lt (lt_of_not_le hgt), h⟩

theorem foldl_insert_chain (l : List Detection) :
    ∀ acc, List.Chain' (fun a b : Detection => b.prob ≤ a.prob) acc →
      List.Chain' (fun a b : Detection => b.prob ≤ a.prob)
        (l.foldl (fun acc x => insertByProbDesc x acc) acc) := by
  induction l with
  | nil => intro acc h; exact h
  | cons x l ih =>
      intro acc h
      rw [List.foldl_cons]
      exact ih _ (insertByProbDesc_chain x acc h)

/-- The final sort is descending in probability. -/
theorem sortByProbDesc_chain (l : List Detection) :
    List.Chain' (fun a b : Detection => b.prob ≤ a.prob)
      (sortByProbDesc l) :=
  foldl_insert_chain l [] List.chain'_nil

/-- In a descending chain, the head bounds every member. -/
theorem chain_head_bounds (y : Detection) (ys : List Detection)
    (h : List.Chain' (fun a b : Detection => b.prob ≤ a.prob) (y :: ys)) :
    ∀ z ∈ y :: ys, z.prob ≤ y.prob := by
  haveI : IsTrans Detection (fun a b : Detection => b.prob ≤ a.prob) :=
    ⟨fun a b c h1 h2 => le_trans h2 h1⟩
  have hp := List.chain'_iff_pairwise.mp h
  intro z hz
  rcases List.mem_cons.mp hz with rfl | hz'
  · exact le_refl _
  · exact (List.pairwise_cons.mp hp).1 z hz'

/-- Inserting into a descending chain appends the new record after all
records of its own probability. -/
theorem filter_insertByProbDesc (x : Detection) (q : Rat) :
    ∀ l : List Detection,
      List.Chain' (fun a b : Detection => b.prob ≤ a.prob) l →
      (insertByProbDesc x l).filter (fun r => r.prob == q) =
        l.filter (fun r => r.prob == q) ++
          (if x.prob == q then [x] else []) := by
  intro l
  induction l with
  | nil =>
      intro h
      unfold insertByProbDesc
      rw [List.filter_cons, List.filter_nil]
      split <;> simp
  | cons y ys ih =>
      intro h
      unfold insertByProbDesc
      split
      · rename_i hle
        rw [List.filter_cons, List.filter_cons, ih (List.Chain'.tail h)]
        split
        · rw [List.cons_append]
        · rfl
      · rename_i hgt
        rw [List.filter_cons]
        split
        · rename_i hpx
          have hxq : x.prob = q := by simpa using hpx
          have hnil : (y :: ys).filter (fun r => r.prob == q) = [] := by
            rw [List.filter_eq_nil]
            intro z hz
            have hzy := chain_head_bounds y ys h z hz
            have : z.prob ≠ q := by
              have : z.prob < x.prob := lt_of_le_of_lt hzy (lt_of_not_le hgt)
              rw [hxq] at this
              exact ne_of_lt this
            simpa using this
          rw [hnil]
          rfl
        · rw [List.append_nil]

theorem foldl_insert_filter (q : Rat) (l : List Detection) :
    ∀ acc : List Detection,
      List.Chain' (fun a b : Detection => b.prob ≤ a.prob) acc →
      (l.foldl (fun acc x => insertByProbDesc x acc) acc).filter
          (fun r => r.prob == q) =
        acc.filter (fun r => r.prob == q) ++
          l.filter (fun r => r.prob == q) := by
  induction l with
  | nil => intro acc h; rw [List.foldl_nil, List.filter_nil, List.append_nil]
  | cons x l ih =>
      intro acc h
      rw [List.foldl_cons, ih _ (insertByProbDesc_chain x acc h),
        filter_insertByProbDesc x q acc h, List.filter_cons,
        List.append_assoc]
      congr 1
      split <;> rfl

/-- Stability of the final sort: records of any fixed probability keep
their relative order. -/
theorem sortByProbDesc_stable (q : Rat) (l : List Detection) :
    (sortByProbDesc l).filter (fun r => r.prob == q) =
      l.filter (fun r => r.prob == q) := by
  have h := foldl_insert_filter q l [] List.chain'_nil
  rw [List.filter_nil, List.nil_append] at h
  exact h

/-- A slot list whose filled entries each hold the record of their own
index compacts to the records of a strictly increasing index list. -/
theorem filterMap_eq_map_of_slots (f : Nat → Detection) :
    ∀ (slots : List (Option Detection)) (base : Nat),
      (∀ j v, slots.get? j = some (some v) → v = f (base + j)) →
      ∃ is : List Nat, is.Pairwise (· < ·) ∧
        (∀ i ∈ is, base ≤ i ∧ i < base + slots.length) ∧
        slots.filterMap id = is.map f := by
  intro slots
  induction slots with
  | nil =>
      intro base h
      refine ⟨[], List.Pairwise.nil, ?_, rfl⟩
      intro i hi
      cases hi
  | cons o rest ih =>
      intro base h
      have hshift : ∀ j v, rest.get? j = some (some v) → v = f (base + 1 + j) := by
        intro j v hj
        have hv := h (j + 1) v hj
        rw [hv]
        congr 1
        omega
      obtain ⟨is, h1, h2, h3⟩ := ih (base + 1) hshift
      cases o with
      | none =>
          refine ⟨is, h1, ?_, by simpa using h3⟩
          intro i hi
          have := h2 i hi
          rw [List.length_cons]
          omega
      | some v₀ =>
          have hv₀ : v₀ = f base := by
            have hv := h 0 v₀ rfl
            rw [hv]
            congr 1
          refine ⟨base :: is, ?_, ?_, ?_⟩
          · refine List.Pairwise.cons ?_ h1
            intro i hi
            have := h2 i hi
            omega
          · intro i hi
            rw [List.length_cons]
            rcases List.mem_cons.mp hi with rfl | hi'
            · omega
            · have := h2 i hi'
              omega
          · show v₀ :: rest.filterMap id = _
            rw [h3, List.map_cons, hv₀]

/-- Absolute per-coordinate differences are symmetric in the two boxes. -/
theorem absDiffs_comm (a b : List Int) : absDiffs a b = absDiffs b a := by
  unfold absDiffs
  rw [← List.zip_swap, List.map_map]
  congr 1
  funext p
  show |p.2 - p.1| = |p.1 - p.2|
  exact abs_sub_comm p.2 p.1

theorem absDiffs_self (a : List Int) :
    absDiffs a a = List.replicate a.length 0 := by
  unfold absDiffs
  have hz : a.zip a = a.map (fun x => (x, x)) := by
    simpa using List.zip_map' (fun x : Int => x) (fun x : Int => x) a
  rw [hz, List.map_map]
  have : a.map ((fun p : Int × Int => |p.1 - p.2|) ∘ fun x => (x, x)) =
      a.map (fun _ => (0 : Int)) := by
    refine List.map_eq_map_iff.mpr ?_
    intro x hx
    simp
  rw [this, List.map_const']

theorem sortInts_replicate_zero (n : Nat) :
    sortInts (List.replicate n 0) = List.replicate n 0 := by
  induction n with
  | zero => rfl
  | succ n ih =>
      show insertLe 0 (sortInts (List.replicate n 0)) = _
      rw [ih]
      cases n with
      | zero => rfl
      | succ m =>
          show insertLe 0 (0 :: List.replicate m 0) = _
          unfold insertLe
          rw [if_pos (le_refl 0)]
          simp [List.replicate_succ]

theorem dedupAdj_replicate_zero (n : Nat) (h : 0 < n) :
    dedupAdj (List.replicate n 0) = [0] := by
  induction n with
  | zero => omega
  | succ n ih =>
      cases n with
      | zero => rfl
      | succ m =>
          show dedupAdj (0 :: 0 :: List.replicate m 0) = [0]
          unfold dedupAdj
          rw [if_pos rfl]
          exact ih (by omega)

/-- A box's difference signature against itself (or any identical box)
is never `[0, 1]`. -/
theorem npUnique_absDiffs_self_ne (a : List Int) :
    npUnique (absDiffs a a) ≠ [0, 1] := by
  rw [absDiffs_self]
  unfold npUnique
  rw [sortInts_replicate_zero]
  cases ha : a.length with
  | zero => simp [dedupAdj]
  | succ m =>
      rw [dedupAdj_replicate_zero _ (by omega)]
      simp

/-- Membership characterization of `bbs_pixel_apart`. -/
theorem mem_bbs_pixel_apart (obj : List Int) (objects : List (List Int))
    (i : Nat) :
    i ∈ bbs_pixel_apart obj objects ↔
      ∃ b, objects.get? i = some b ∧ npUnique (absDiffs b obj) = [0, 1] := by
  unfold bbs_pixel_apart
  constructor
  · intro h
    obtain ⟨p, hp, hp1⟩ := List.mem_map.mp h
    obtain ⟨hpe, hpq⟩ := List.mem_filter.mp hp
    obtain ⟨k, x⟩ := p
    simp only at hp1
    subst hp1
    refine ⟨x, ?_, by simpa using hpq⟩
    have := List.mk_mem_enum_iff_getElem?.mp hpe
    rw [List.get?_eq_getElem?, this]
  · rintro ⟨b, hb, hq⟩
    refine List.mem_map.mpr
      ⟨(i, b), List.mem_filter.mpr ⟨?_, by simpa using hq⟩, rfl⟩
    rw [List.mk_mem_enum_iff_getElem?, ← List.get?_eq_getElem?]
    exact hb

/-- Insert into an ascending list of indices (used only by the
spec-modelled near-duplicate winner below). -/
def insertNatLe (x : Nat) : List Nat → List Nat
  | [] => [x]
  | y :: ys => if x ≤ y then x :: y :: ys else y :: insertNatLe x ys

/-- Modelled from the spec: "the group's member with the highest `prob`
(ties broken by first occurrence in scan order) is kept".  The candidate
set is the near-duplicate group of box `b` together with `b` itself, in
ascending index order — scan order over the original list — and the
winner is the first candidate of maximal probability.  This follows the
spec's words and exists to be compared against `nearDupTarget`, which is
what the code computes. -/
def claimNearDupWinner (objects : List (List Int)) (probs : List Rat)
    (b : Nat) : Nat :=
  firstMatch (insertNatLe b (bbs_pixel_apart (objects.getD b []) objects))
    ((insertNatLe b (bbs_pixel_apart (objects.getD b []) objects)).map
      (fun i => probs.getD i 0))
    (pythonMax
      ((insertNatLe b (bbs_pixel_apart (objects.getD b []) objects)).map
        (fun i => probs.getD i 0)))

/-! ## Claim theorems -/

/-- C1 (counterexample): for boxes `[[0,0,10,10],[0,0,10,11]]` with
probabilities `[0.4, 0.95]`, the post-processing does NOT return exactly
one record: the output has two records, because the unique-box rule
re-writes the lower-probability near-duplicate into its own slot after
the near-duplicate rule picked the winner. -/
theorem C1_counterexample :
    (predict_image_post [[0, 0, 10, 10], [0, 0, 10, 11]] [1, 2]
      [2/5, 19/20]).map List.length ≠ some 1 := by with_unfolding_all decide

/-- C1 (amended): for boxes `[[0,0,10,10],[0,0,10,11]]` (near-duplicates)
with probabilities `[0.4, 0.95]`, the output is exactly TWO records: the
higher-probability box's own record first (`bbox [0,0,10,11]`, its own
label, prob `0.95`), then the lower-probability near-duplicate's own
record (`bbox [0,0,10,10]`, its own label, prob `0.4`) — the loser is
not suppressed because its coordinate tuple is unique, so the unique-box
rule writes it back into its own slot. -/
theorem C1_near_duplicate_output :
    predict_image_post [[0, 0, 10, 10], [0, 0, 10, 11]] [1, 2]
        [2/5, 19/20] =
      some [⟨[0, 0, 10, 11], 2, 19/20⟩, ⟨[0, 0, 10, 10], 1, 2/5⟩] := by
  with_unfolding_all decide

/-- C5: the rescaler divides a box `[xmin,ymin,xmax,ymax]` element-wise
by `[sw, sh, sw, sh]` for a pair scale factor and by the scalar for a
scalar one, then rounds every coordinate with the single consistent
nearest-integer rule `roundHalfEven` (within 1/2 of the true quotient);
in particular `[100,100,200,200]` maps to `[50,50,100,100]` under scale
factor `2.0` and to `[25,50,50,100]` under `(2.0, 4.0)`. -/
theorem C5_rescaling :
    (∀ x1 y1 x2 y2 sh sw : Rat,
      rescaleBox (ScaleFactor.pair sh sw) [x1, y1, x2, y2] =
        [roundHalfEven (x1 / sw), roundHalfEven (y1 / sh),
         roundHalfEven (x2 / sw), roundHalfEven (y2 / sh)]) ∧
    (∀ (box : List Rat) (s : Rat),
      rescaleBox (ScaleFactor.scalar s) box =
        box.map (fun c => roundHalfEven (c / s))) ∧
    (∀ q : Rat, |(roundHalfEven q : Rat) - q| ≤ 1/2) ∧
    rescaleBox (ScaleFactor.scalar 2) [100, 100, 200, 200] =
      [50, 50, 100, 100] ∧
    rescaleBox (ScaleFactor.pair 2 4) [100, 100, 200, 200] =
      [25, 50, 50, 100] := by
  refine ⟨?_, ?_, roundHalfEven_close, by with_unfolding_all decide, by with_unfolding_all decide⟩
  · intro x1 y1 x2 y2 sh sw
    rfl
  · intro box s
    rfl

/-- C6: the post-processing fails (returns `none`, modelling the
assertion error raised before any slot write) if and only if
`len(objects) ≠ len(labels)` or `len(objects) ≠ len(probs)`; with
aligned lengths it always produces a result (the embedded computation is
total). -/
theorem C6_length_assert (objects : List (List Int)) (labels : List Int)
    (probs : List Rat) :
    predict_image_post objects labels probs = none ↔
      (objects.length ≠ labels.length ∨ objects.length ≠ probs.length) := by
  unfold predict_image_post
  by_cases h : objects.length = labels.length ∧ labels.length = probs.length
  · rw [if_pos h]
    obtain ⟨h1, h2⟩ := h
    constructor
    · intro hc
      cases hc
    · intro hor
      exfalso
      rcases hor with h3 | h3 <;> omega
  · rw [if_neg h]
    constructor
    · intro _
      by_contra hnor
      push_neg at hnor
      exact h ⟨hnor.1, by omega⟩
    · intro _
      rfl

/-- C2: a box whose rescaled coordinate tuple occurs exactly once ends
the pass with its own record `(objects[i], labels[i], round(probs[i],4))`
in its own slot — regardless of near-duplicate groups, whose writes into
slot `i` can only ever be that same record — and that record appears in
the final output. -/
theorem C2_unique_box_rule (objects : List (List Int)) (labels : List Int)
    (probs : List Rat) (i : Nat) (out : List Detection)
    (ho : objects.length = labels.length) (hp : labels.length = probs.length)
    (hi : i < objects.length)
    (h1 : objects.count (objects.getD i []) = 1)
    (hout : predict_image_post objects labels probs = some out) :
    (runPass objects labels probs).get? i =
      some (some (ownRecord objects labels probs i)) ∧
    ownRecord objects labels probs i ∈ out := by
  have hslot := runPass_unique_slot objects labels probs i ho hp hi h1
  refine ⟨hslot, ?_⟩
  have hc : ownRecord objects labels probs i ∈ compacted objects labels probs :=
    mem_compacted_of_slot objects labels probs i _ hslot
  unfold predict_image_post at hout
  rw [if_pos ⟨ho, hp⟩] at hout
  injection hout with hout
  rw [← hout]
  exact ((sortByProbDesc_perm _).mem_iff).mpr hc

/-- C2 witness at a concrete one-box batch. -/
theorem C2_unique_box_rule_witness :
    (([[0, 0, 10, 10]] : List (List Int)).length = ([7] : List Int).length ∧
     ([7] : List Int).length = ([1/2] : List Rat).length ∧
     0 < ([[0, 0, 10, 10]] : List (List Int)).length ∧
     ([[0, 0, 10, 10]] : List (List Int)).count
       (([[0, 0, 10, 10]] : List (List Int)).getD 0 []) = 1 ∧
     predict_image_post [[0, 0, 10, 10]] [7] [1/2] =
       some [⟨[0, 0, 10, 10], 7, 1/2⟩]) ∧
    ((runPass [[0, 0, 10, 10]] [7] [1/2]).get? 0 =
      some (some (ownRecord [[0, 0, 10, 10]] [7] [1/2] 0)) ∧
     ownRecord [[0, 0, 10, 10]] [7] [1/2] 0 ∈ [⟨[0, 0, 10, 10], 7, 1/2⟩]) :=
  ⟨⟨by with_unfolding_all decide, by with_unfolding_all decide,
    by with_unfolding_all decide, by with_unfolding_all decide,
    by with_unfolding_all decide⟩,
   C2_unique_box_rule [[0, 0, 10, 10]] [7] [1/2] 0 [⟨[0, 0, 10, 10], 7, 1/2⟩]
     (by with_unfolding_all decide) (by with_unfolding_all decide)
     (by with_unfolding_all decide) (by with_unfolding_all decide)
     (by with_unfolding_all decide)⟩

/-- C3 (counterexample): with boxes `[[0,0,10,10],[0,0,10,10],[0,0,10,11]]`
and probabilities `[0.5, 0.9, 0.5]`, box 0's near-duplicate group is
`{2}` and probabilities tie at `0.5`; scan order over the original list
would make index 0 the winner, but the code appends the current box
LAST to the candidate list, so it selects index 2 — and the final output
omits index 0's record, which scan-order tie-breaking would have kept. -/
theorem C3_counterexample :
    nearDupTarget [[0, 0, 10, 10], [0, 0, 10, 10], [0, 0, 10, 11]]
        [1/2, 9/10, 1/2] 0 [0, 0, 10, 10] (1/2) = 2 ∧
    claimNearDupWinner [[0, 0, 10, 10], [0, 0, 10, 10], [0, 0, 10, 11]]
        [1/2, 9/10, 1/2] 0 = 0 ∧
    predict_image_post [[0, 0, 10, 10], [0, 0, 10, 10], [0, 0, 10, 11]]
        [1, 2, 3] [1/2, 9/10, 1/2] =
      some [⟨[0, 0, 10, 10], 2, 9/10⟩, ⟨[0, 0, 10, 11], 3, 1/2⟩] := by
  with_unfolding_all decide

/-- C3 (amended): for every box with a nonempty near-duplicate group
(difference signature exactly `{0,1}`), the rule writes one record into
the slot of the candidate with the highest probability, where ties are
broken by first occurrence in the candidate order "group members in
ascending index order, then the current box LAST" (not plain scan
order); the record is the winner's own bbox and own label with the
maximal probability rounded to 4 decimals. -/
theorem C3_near_duplicate_winner (objects : List (List Int))
    (labels : List Int) (probs : List Rat) (c : Nat) (obj : List Int)
    (prob : Rat) (preds : List (Option Detection))
    (hprob : probs.getD c 0 = prob)
    (hne : bbs_pixel_apart obj objects ≠ []) :
    (∃ k, (bbs_pixel_apart obj objects ++ [c]).get? k =
        some (nearDupTarget objects probs c obj prob) ∧
      probs.getD (nearDupTarget objects probs c obj prob) 0 =
        pythonMax ((bbs_pixel_apart obj objects ++ [c]).map
          (fun i => probs.getD i 0)) ∧
      ∀ k' < k, ∀ j, (bbs_pixel_apart obj objects ++ [c]).get? k' = some j →
        probs.getD j 0 ≠
          pythonMax ((bbs_pixel_apart obj objects ++ [c]).map
            (fun i => probs.getD i 0))) ∧
    (∀ j ∈ bbs_pixel_apart obj objects ++ [c],
      probs.getD j 0 ≤
        probs.getD (nearDupTarget objects probs c obj prob) 0) ∧
    nearDupStep objects labels probs c obj prob preds =
      preds.set (nearDupTarget objects probs c obj prob)
        (some (ownRecord objects labels probs
          (nearDupTarget objects probs c obj prob))) := by
  obtain ⟨k, hk, hmax, hfirst⟩ :=
    nearDupTarget_spec objects probs c obj prob hprob
  refine ⟨⟨k, hk, hmax, hfirst⟩, ?_,
    nearDupStep_eq_set objects labels probs c obj prob preds hprob hne⟩
  intro j hj
  rw [hmax]
  exact le_pythonMax _ _ (List.mem_map.mpr ⟨j, hj, rfl⟩)

/-- C3 witness at a concrete two-box batch. -/
theorem C3_near_duplicate_winner_witness :
    (([2/5, 19/20] : List Rat).getD 0 0 = 2/5 ∧
     bbs_pixel_apart [0, 0, 10, 10] [[0, 0, 10, 10], [0, 0, 10, 11]] ≠ []) ∧
    ((∃ k, (bbs_pixel_apart [0, 0, 10, 10]
          [[0, 0, 10, 10], [0, 0, 10, 11]] ++ [0]).get? k =
        some (nearDupTarget [[0, 0, 10, 10], [0, 0, 10, 11]] [2/5, 19/20] 0
          [0, 0, 10, 10] (2/5)) ∧
      ([2/5, 19/20] : List Rat).getD
          (nearDupTarget [[0, 0, 10, 10], [0, 0, 10, 11]] [2/5, 19/20] 0
            [0, 0, 10, 10] (2/5)) 0 =
        pythonMax ((bbs_pixel_apart [0, 0, 10, 10]
            [[0, 0, 10, 10], [0, 0, 10, 11]] ++ [0]).map
          (fun i => ([2/5, 19/20] : List Rat).getD i 0)) ∧
      ∀ k' < k, ∀ j, (bbs_pixel_apart [0, 0, 10, 10]
          [[0, 0, 10, 10], [0, 0, 10, 11]] ++ [0]).get? k' = some j →
        ([2/5, 19/20] : List Rat).getD j 0 ≠
          pythonMax ((bbs_pixel_apart [0, 0, 10, 10]
              [[0, 0, 10, 10], [0, 0, 10, 11]] ++ [0]).map
            (fun i => ([2/5, 19/20] : List Rat).getD i 0))) ∧
    (∀ j ∈ bbs_pixel_apart [0, 0, 10, 10]
        [[0, 0, 10, 10], [0, 0, 10, 11]] ++ [0],
      ([2/5, 19/20] : List Rat).getD j 0 ≤
        ([2/5, 19/20] : List Rat).getD
          (nearDupTarget [[0, 0, 10, 10], [0, 0, 10, 11]] [2/5, 19/20] 0
            [0, 0, 10, 10] (2/5)) 0) ∧
    nearDupStep [[0, 0, 10, 10], [0, 0, 10, 11]] [1, 2] [2/5, 19/20] 0
        [0, 0, 10, 10] (2/5) [none, none] =
      [none, none].set
        (nearDupTarget [[0, 0, 10, 10], [0, 0, 10, 11]] [2/5, 19/20] 0
          [0, 0, 10, 10] (2/5))
        (some (ownRecord [[0, 0, 10, 10], [0, 0, 10, 11]] [1, 2] [2/5, 19/20]
          (nearDupTarget [[0, 0, 10, 10], [0, 0, 10, 11]] [2/5, 19/20] 0
            [0, 0, 10, 10] (2/5))))) :=
  ⟨⟨by with_unfolding_all decide, by with_unfolding_all decide⟩,
   C3_near_duplicate_winner [[0, 0, 10, 10], [0, 0, 10, 11]] [1, 2]
     [2/5, 19/20] 0 [0, 0, 10, 10] (2/5) [none, none]
     (by with_unfolding_all decide) (by with_unfolding_all decide)⟩

/-- C4 (counterexample): for boxes
`[[0,0,10,10],[0,0,10,10],[0,0,10,11]]` with probabilities
`[0.5, 0.9, 0.3]`, the tuple `[0,0,10,10]` occurs twice but appears
TWICE in the output: the near-duplicate rule writes the exact-duplicate
loser (index 0) back into its own slot, so the exact-duplicate rule's
collapsing is not "exactly one record for that tuple" in general. -/
theorem C4_counterexample :
    (predict_image_post [[0, 0, 10, 10], [0, 0, 10, 10], [0, 0, 10, 11]]
      [1, 2, 3] [1/2, 9/10, 3/10]).map
      (fun out => out.countP (fun r => r.bbox == [0, 0, 10, 10])) =
      some 2 := by
  with_unfolding_all decide

/-- C4 (amended): for every tuple occurring more than once, the
exact-duplicate rule writes the record `{bbox: tuple, label: winner's
label, prob: round(max prob, 4)}` into the winning slot (first
occurrence of the maximal probability), and that slot survives the pass
holding exactly that record; but losing occurrences' slots can still be
filled by the near-duplicate rule, so the output need not contain
exactly one record with that tuple.  In the absence of such
interference, e.g. `[[0,0,10,10],[0,0,10,10]]` with probs `[0.5, 0.9]`
and labels `[1,2]`, the output is exactly one record
`{bbox [0,0,10,10], label 2, prob 0.9}`. -/
theorem C4_exact_duplicate_rule (objects : List (List Int))
    (labels : List Int) (probs : List Rat) (i : Nat)
    (ho : objects.length = labels.length) (hp : labels.length = probs.length)
    (hi : i < objects.length)
    (h2 : 1 < objects.count (objects.getD i [])) :
    (runPass objects labels probs).get?
        (exactTarget objects probs (objects.getD i [])) =
      some (some (ownRecord objects labels probs
        (exactTarget objects probs (objects.getD i [])))) ∧
    objects.get? (exactTarget objects probs (objects.getD i [])) =
      some (objects.getD i []) ∧
    probs.getD (exactTarget objects probs (objects.getD i [])) 0 =
      pythonMax ((exactIndices objects (objects.getD i [])).map
        (fun j => probs.getD j 0)) ∧
    predict_image_post [[0, 0, 10, 10], [0, 0, 10, 10]] [1, 2]
        [1/2, 9/10] = some [⟨[0, 0, 10, 10], 2, 9/10⟩] := by
  obtain ⟨k, hk, hobj', hmax, _⟩ :=
    exactTarget_spec objects probs _
      (exactIndices_ne_nil objects (objects.getD i []) (by omega))
  exact ⟨runPass_exact_slot objects labels probs i ho hp hi h2, hobj', hmax,
    by with_unfolding_all decide⟩

/-- C4 witness at the concrete two-box exact-duplicate batch. -/
theorem C4_exact_duplicate_rule_witness :
    (([[0, 0, 10, 10], [0, 0, 10, 10]] : List (List Int)).length =
       ([1, 2] : List Int).length ∧
     ([1, 2] : List Int).length = ([1/2, 9/10] : List Rat).length ∧
     0 < ([[0, 0, 10, 10], [0, 0, 10, 10]] : List (List Int)).length ∧
     1 < ([[0, 0, 10, 10], [0, 0, 10, 10]] : List (List Int)).count
       (([[0, 0, 10, 10], [0, 0, 10, 10]] : List (List Int)).getD 0 [])) ∧
    ((runPass [[0, 0, 10, 10], [0, 0, 10, 10]] [1, 2] [1/2, 9/10]).get?
        (exactTarget [[0, 0, 10, 10], [0, 0, 10, 10]] [1/2, 9/10]
          (([[0, 0, 10, 10], [0, 0, 10, 10]] : List (List Int)).getD 0 [])) =
      some (some (ownRecord [[0, 0, 10, 10], [0, 0, 10, 10]] [1, 2]
        [1/2, 9/10]
        (exactTarget [[0, 0, 10, 10], [0, 0, 10, 10]] [1/2, 9/10]
          (([[0, 0, 10, 10], [0, 0, 10, 10]] : List (List Int)).getD 0 [])))) ∧
     ([[0, 0, 10, 10], [0, 0, 10, 10]] : List (List Int)).get?
        (exactTarget [[0, 0, 10, 10], [0, 0, 10, 10]] [1/2, 9/10]
          (([[0, 0, 10, 10], [0, 0, 10, 10]] : List (List Int)).getD 0 [])) =
      some (([[0, 0, 10, 10], [0, 0, 10, 10]] : List (List Int)).getD 0 []) ∧
     ([1/2, 9/10] : List Rat).getD
        (exactTarget [[0, 0, 10, 10], [0, 0, 10, 10]] [1/2, 9/10]
          (([[0, 0, 10, 10], [0, 0, 10, 10]] : List (List Int)).getD 0 [])) 0 =
      pythonMax ((exactIndices [[0, 0, 10, 10], [0, 0, 10, 10]]
          (([[0, 0, 10, 10], [0, 0, 10, 10]] : List (List Int)).getD 0 [])).map
        (fun j => ([1/2, 9/10] : List Rat).getD j 0)) ∧
     predict_image_post [[0, 0, 10, 10], [0, 0, 10, 10]] [1, 2]
        [1/2, 9/10] = some [⟨[0, 0, 10, 10], 2, 9/10⟩]) :=
  ⟨⟨by with_unfolding_all decide, by with_unfolding_all decide,
    by with_unfolding_all decide, by with_unfolding_all decide⟩,
   C4_exact_duplicate_rule [[0, 0, 10, 10], [0, 0, 10, 10]] [1, 2]
     [1/2, 9/10] 0 (by with_unfolding_all decide)
     (by with_unfolding_all decide) (by with_unfolding_all decide)
     (by with_unfolding_all decide)⟩

/-- C7: the returned list is sorted by probability descending (every
adjacent pair satisfies `a.prob ≥ b.prob`), and the sort is stable:
records of any fixed probability keep their relative order from the
compacted pre-sort array. -/
theorem C7_sort_invariant (objects : List (List Int)) (labels : List Int)
    (probs : List Rat) (out : List Detection)
    (hout : predict_image_post objects labels probs = some out) :
    List.Chain' (fun a b : Detection => b.prob ≤ a.prob) out ∧
    ∀ q : Rat, out.filter (fun r => r.prob == q) =
      (compacted objects labels probs).filter (fun r => r.prob == q) := by
  unfold predict_image_post at hout
  split at hout
  · injection hout with hout
    rw [← hout]
    exact ⟨sortByProbDesc_chain _, fun q => sortByProbDesc_stable q _⟩
  · cases hout

/-- C7 witness at a concrete two-box batch. -/
theorem C7_sort_invariant_witness :
    predict_image_post [[1, 2, 3, 4], [5, 6, 7, 8]] [1, 2] [1/4, 3/4] =
      some [⟨[5, 6, 7, 8], 2, 3/4⟩, ⟨[1, 2, 3, 4], 1, 1/4⟩] ∧
    (List.Chain' (fun a b : Detection => b.prob ≤ a.prob)
      [⟨[5, 6, 7, 8], 2, 3/4⟩, ⟨[1, 2, 3, 4], 1, 1/4⟩] ∧
     ∀ q : Rat, ([⟨[5, 6, 7, 8], 2, 3/4⟩, ⟨[1, 2, 3, 4], 1, 1/4⟩] :
         List Detection).filter (fun r => r.prob == q) =
       (compacted [[1, 2, 3, 4], [5, 6, 7, 8]] [1, 2] [1/4, 3/4]).filter
         (fun r => r.prob == q)) :=
  ⟨by with_unfolding_all decide,
   C7_sort_invariant [[1, 2, 3, 4], [5, 6, 7, 8]] [1, 2] [1/4, 3/4]
     [⟨[5, 6, 7, 8], 2, 3/4⟩, ⟨[1, 2, 3, 4], 1, 1/4⟩]
     (by with_unfolding_all decide)⟩

/-- C8: the output never exceeds the input in length (slots are only
written, never appended, and empty slots are dropped), and the empty
batch yields the empty output without error. -/
theorem C8_cardinality (objects : List (List Int)) (labels : List Int)
    (probs : List Rat) (out : List Detection)
    (hout : predict_image_post objects labels probs = some out) :
    out.length ≤ objects.length ∧
    predict_image_post [] [] [] = some [] := by
  refine ⟨?_, by with_unfolding_all decide⟩
  unfold predict_image_post at hout
  split at hout
  · injection hout with hout
    rw [← hout, (sortByProbDesc_perm _).length_eq]
    unfold compacted
    calc ((runPass objects labels probs).filterMap id).length
        ≤ (runPass objects labels probs).length :=
          List.length_filterMap_le id _
      _ = objects.length := runPass_length objects labels probs
  · cases hout

/-- C8 witness at a concrete one-box batch. -/
theorem C8_cardinality_witness :
    predict_image_post [[9, 9, 9, 9]] [4] [3/4] =
      some [⟨[9, 9, 9, 9], 4, 3/4⟩] ∧
    (([⟨[9, 9, 9, 9], 4, 3/4⟩] : List Detection).length ≤
       ([[9, 9, 9, 9]] : List (List Int)).length ∧
     predict_image_post [] [] [] = some []) :=
  ⟨by with_unfolding_all decide,
   C8_cardinality [[9, 9, 9, 9]] [4] [3/4]
     [⟨[9, 9, 9, 9], 4, 3/4⟩] (by with_unfolding_all decide)⟩

/-- C9: every output record is `(objects[i], labels[i],
round(probs[i], 4))` for some input index `i` — bbox, label and
probability always come together from one index — and the output is a
permutation of the records of a strictly increasing (hence duplicate-
free) list of indices: distinct output records come from distinct
indices. -/
theorem C9_provenance (objects : List (List Int)) (labels : List Int)
    (probs : List Rat) (out : List Detection)
    (hout : predict_image_post objects labels probs = some out) :
    ∃ is : List Nat, is.Pairwise (· < ·) ∧
      (∀ i ∈ is, i < objects.length) ∧
      List.Perm out (is.map (ownRecord objects labels probs)) := by
  have hinv : ∀ j v, (runPass objects labels probs).get? j = some (some v) →
      v = ownRecord objects labels probs (0 + j) := by
    intro j v hj
    have hval := runPass_slotsOk objects labels probs j v hj
    rw [Nat.zero_add]
    exact hval
  unfold predict_image_post at hout
  split at hout
  · injection hout with hout
    obtain ⟨is, h1, h2, h3⟩ :=
      filterMap_eq_map_of_slots (ownRecord objects labels probs)
        (runPass objects labels probs) 0 hinv
    refine ⟨is, h1, ?_, ?_⟩
    · intro i hi
      have hb := h2 i hi
      have hl := runPass_length objects labels probs
      omega
    · rw [← hout]
      refine List.Perm.trans (sortByProbDesc_perm _) ?_
      unfold compacted
      rw [h3]
  · cases hout

/-- C9 witness at a concrete one-box batch. -/
theorem C9_provenance_witness :
    predict_image_post [[1, 1, 2, 2]] [9] [1] = some [⟨[1, 1, 2, 2], 9, 1⟩] ∧
    ∃ is : List Nat, is.Pairwise (· < ·) ∧
      (∀ i ∈ is, i < ([[1, 1, 2, 2]] : List (List Int)).length) ∧
      List.Perm [⟨[1, 1, 2, 2], 9, 1⟩]
        (is.map (ownRecord [[1, 1, 2, 2]] [9] [1])) :=
  ⟨by with_unfolding_all decide,
   C9_provenance [[1, 1, 2, 2]] [9] [1] [⟨[1, 1, 2, 2], 9, 1⟩]
     (by with_unfolding_all decide)⟩

/-- C10: the near-duplicate relation is symmetric — box `i` is in box
`j`'s group iff box `j` is in box `i`'s group — and two boxes with
identical coordinate tuples are never near-duplicates of each other
(their difference signature is `{0}`, not `{0,1}`), so exact duplicates
are left to the exact-duplicate rule. -/
theorem C10_near_dup_symmetry (objects : List (List Int)) (i j : Nat)
    (hi : i < objects.length) (hj : j < objects.length) :
    (i ∈ bbs_pixel_apart (objects.getD j []) objects ↔
     j ∈ bbs_pixel_apart (objects.getD i []) objects) ∧
    (objects.getD i [] = objects.getD j [] →
      i ∉ bbs_pixel_apart (objects.getD j []) objects) := by
  have hgi : objects.get? i = some (objects.getD i []) :=
    get?_eq_some_getD objects i [] hi
  have hgj : objects.get? j = some (objects.getD j []) :=
    get?_eq_some_getD objects j [] hj
  constructor
  · constructor
    · intro h
      obtain ⟨b, hb, hq⟩ := (mem_bbs_pixel_apart _ _ _).mp h
      rw [hgi] at hb
      injection hb with hb
      subst hb
      refine (mem_bbs_pixel_apart _ _ _).mpr ⟨objects.getD j [], hgj, ?_⟩
      rw [absDiffs_comm]
      exact hq
    · intro h
      obtain ⟨b, hb, hq⟩ := (mem_bbs_pixel_apart _ _ _).mp h
      rw [hgj] at hb
      injection hb with hb
      subst hb
      refine (mem_bbs_pixel_apart _ _ _).mpr ⟨objects.getD i [], hgi, ?_⟩
      rw [absDiffs_comm]
      exact hq
  · intro heq h
    obtain ⟨b, hb, hq⟩ := (mem_bbs_pixel_apart _ _ _).mp h
    rw [hgi] at hb
    injection hb with hb
    subst hb
    rw [← heq] at hq
    exact npUnique_absDiffs_self_ne _ hq

/-- C10 witness at a concrete two-box batch. -/
theorem C10_near_dup_symmetry_witness :
    (0 < ([[0, 0, 10, 10], [0, 0, 10, 11]] : List (List Int)).length ∧
     1 < ([[0, 0, 10, 10], [0, 0, 10, 11]] : List (List Int)).length) ∧
    ((0 ∈ bbs_pixel_apart
        (([[0, 0, 10, 10], [0, 0, 10, 11]] : List (List Int)).getD 1 [])
        [[0, 0, 10, 10], [0, 0, 10, 11]] ↔
      1 ∈ bbs_pixel_apart
        (([[0, 0, 10, 10], [0, 0, 10, 11]] : List (List Int)).getD 0 [])
        [[0, 0, 10, 10], [0, 0, 10, 11]]) ∧
     (([[0, 0, 10, 10], [0, 0, 10, 11]] : List (List Int)).getD 0 [] =
        ([[0, 0, 10, 10], [0, 0, 10, 11]] : List (List Int)).getD 1 [] →
      0 ∉ bbs_pixel_apart
        (([[0, 0, 10, 10], [0, 0, 10, 11]] : List (List Int)).getD 1 [])
        [[0, 0, 10, 10], [0, 0, 10, 11]])) :=
  ⟨⟨by with_unfolding_all decide, by with_unfolding_all decide⟩,
   C10_near_dup_symmetry [[0, 0, 10, 10], [0, 0, 10, 11]] 0 1
     (by with_unfolding_all decide) (by with_unfolding_all decide)⟩

end Luminoth
